import Mathlib

/-!
Verification of the smokers-problem synchronization core (src/main.py).

The Python module defines a shared `Table` with fields `ingredients` (a list
of what currently lies on the table), `smoker_status` (a dict from ingredient
kind to a busy flag), `table_busy`, and three semaphores: `table_mutex`
(a binary semaphore used purely as a mutex around every critical section),
`agent_sem` (initially 1, the "table free" permit) and `smoker_sem`
(initially 0, the "consumption available" signal).

Shallow embedding: each `Table` method is a pure state transformer executing
its whole critical section atomically (the `table_mutex` is held for the whole
body of each method and is always back to 1 between calls, so it carries no
information and is not a field of the state).  The two counting semaphores are
modelled as natural-number permit counts; a blocking `acquire` becomes an
enabledness condition (`0 < count`) on the corresponding step of the
transition relation.
-/

/-- The three ingredient kinds of the source: INGREDIENTS is the list
of the strings for tobacco, paper and matches in the Python module. -/
inductive Ingredient where
  | tobacco
  | paper
  | matches
deriving DecidableEq

/-- The fixed full ingredient list, from the module-level INGREDIENTS constant. -/
def INGREDIENTS : List Ingredient :=
  [Ingredient.tobacco, Ingredient.paper, Ingredient.matches]

/-- The shared table state.  agent_sem and smoker_sem are the permit counts of
the two counting semaphores of the source. -/
structure Table where
  ingredients : List Ingredient
  smoker_status : Ingredient → Bool
  table_busy : Bool
  agent_sem : Nat
  smoker_sem : Nat

/-- Table.__init__: empty table, nobody smoking, table not busy,
agent_sem = Semaphore(1), smoker_sem = Semaphore(0). -/
def Table.init : Table where
  ingredients := []
  smoker_status := fun _ => false
  table_busy := false
  agent_sem := 1
  smoker_sem := 0

/-- Table.place_ingredients: after acquiring agent_sem (modelled by the
decrement here and the enabledness condition in the step relation), the agent
atomically sets the table contents to the given pair, marks the table busy,
and releases smoker_sem once. -/
def Table.place_ingredients (t : Table) (first second : Ingredient) : Table :=
  { t with
    agent_sem := t.agent_sem - 1
    ingredients := [first, second]
    table_busy := true
    smoker_sem := t.smoker_sem + 1 }

/-- Python set equality of two lists: each is contained in the other, the
meaning of set(xs) == set(ys). -/
def setEq (xs ys : List Ingredient) : Bool :=
  (xs.all fun a => decide (a ∈ ys)) && (ys.all fun a => decide (a ∈ xs))

/-- The local needed of Table.try_take: set(INGREDIENTS) - \x7bown_ingredient\x7d,
as the sublist of INGREDIENTS avoiding own_ingredient. -/
def needed_for (own_ingredient : Ingredient) : List Ingredient :=
  INGREDIENTS.filter fun i => decide (i ≠ own_ingredient)

/-- Table.try_take: atomically, if set(ingredients) == needed and the caller is
not already smoking, clear the table, unmark busy, set the caller smoking,
release agent_sem once and return True; otherwise change nothing and return
False.  The returned pair is (return value, state after the call). -/
def Table.try_take (t : Table) (own_ingredient : Ingredient) : Bool × Table :=
  if setEq t.ingredients (needed_for own_ingredient) && !(t.smoker_status own_ingredient) then
    (true,
      { t with
        ingredients := []
        table_busy := false
        smoker_status := fun k => if k = own_ingredient then true else t.smoker_status k
        agent_sem := t.agent_sem + 1 })
  else
    (false, t)

/-- Table.finish_smoking: atomically clear the caller's smoking flag, then
release smoker_sem once. -/
def Table.finish_smoking (t : Table) (own_ingredient : Ingredient) : Table :=
  { t with
    smoker_status := fun k => if k = own_ingredient then false else t.smoker_status k
    smoker_sem := t.smoker_sem + 1 }

/-- One call of a Table method.  place_ingredients is enabled only when
agent_sem holds a permit (its acquire blocks otherwise) and is called, as at
its only call site in agent via random.sample(INGREDIENTS, 2) and as the
spec precondition of publish demands, with two distinct kinds.  try_take and
finish_smoking contain no blocking acquire and are always enabled. -/
inductive Step : Table → Table → Prop where
  | place (t : Table) (first second : Ingredient) :
      0 < t.agent_sem → first ≠ second →
      Step t (t.place_ingredients first second)
  | take (t : Table) (own : Ingredient) :
      Step t (t.try_take own).2
  | finish (t : Table) (own : Ingredient) :
      Step t (t.finish_smoking own)

/-- Reachability by any interleaving of Table method calls. -/
inductive Reachable : Table → Table → Prop where
  | refl (t : Table) : Reachable t t
  | step {t u v : Table} : Reachable t u → Step u v → Reachable t v

-- Basic facts about the ingredient universe and set equality.

theorem mem_INGREDIENTS (x : Ingredient) : x ∈ INGREDIENTS := by
  cases x <;> simp [INGREDIENTS]

theorem setEq_true_iff (xs ys : List Ingredient) :
    setEq xs ys = true ↔ ∀ x, x ∈ xs ↔ x ∈ ys := by
  simp only [setEq, Bool.and_eq_true, List.all_eq_true, decide_eq_true_eq]
  constructor
  · rintro ⟨h1, h2⟩ x
    exact ⟨fun hx => h1 x hx, fun hy => h2 x hy⟩
  · intro h
    exact ⟨fun x hx => (h x).mp hx, fun x hy => (h x).mpr hy⟩

theorem mem_needed_for (x k : Ingredient) : x ∈ needed_for k ↔ x ≠ k := by
  simp [needed_for, List.mem_filter, mem_INGREDIENTS]

theorem needed_for_ne_nil (k : Ingredient) : needed_for k ≠ [] := by
  cases k <;> simp [needed_for, INGREDIENTS]

-- Case analysis on the branch try_take takes.

theorem try_take_of_cond_true {t : Table} {k : Ingredient}
    (h : (setEq t.ingredients (needed_for k) && !(t.smoker_status k)) = true) :
    t.try_take k =
      (true,
        { t with
          ingredients := []
          table_busy := false
          smoker_status := fun j => if j = k then true else t.smoker_status j
          agent_sem := t.agent_sem + 1 }) := by
  simp [Table.try_take, h]

theorem try_take_of_cond_false {t : Table} {k : Ingredient}
    (h : ¬ (setEq t.ingredients (needed_for k) && !(t.smoker_status k)) = true) :
    t.try_take k = (false, t) := by
  simp [Table.try_take, h]

theorem try_take_cond_iff (t : Table) (k : Ingredient) :
    (setEq t.ingredients (needed_for k) && !(t.smoker_status k)) = true ↔
      ((∀ x, x ∈ t.ingredients ↔ x ≠ k) ∧ t.smoker_status k = false) := by
  rw [Bool.and_eq_true, setEq_true_iff, Bool.not_eq_true']
  constructor
  · rintro ⟨h1, h2⟩
    exact ⟨fun x => (h1 x).trans (mem_needed_for x k), h2⟩
  · rintro ⟨h1, h2⟩
    exact ⟨fun x => (h1 x).trans (mem_needed_for x k).symm, h2⟩

theorem try_take_fst_false_of_nil {t : Table} (k : Ingredient)
    (h : t.ingredients = []) : t.try_take k = (false, t) := by
  apply try_take_of_cond_false
  intro hc
  rcases Bool.and_eq_true .. |>.mp hc with ⟨hs, _⟩
  rcases (setEq_true_iff ..).mp hs with hmem
  have : ∀ x, x ∈ needed_for k → False := by
    intro x hx
    have := (hmem x).mpr hx
    simp [h] at this
  rcases List.exists_mem_of_ne_nil _ (needed_for_ne_nil k) with ⟨y, hy⟩
  exact this y hy

/-- C2: for every resource kind k and every table state, try_take(k) returns
true if and only if, at its atomic check, the ingredients on the table are
exactly the full ingredient set minus k (as a set: an ingredient lies on the
table exactly when it differs from k) and smoker_status[k] is false. -/
theorem try_take_true_iff (t : Table) (k : Ingredient) :
    (t.try_take k).1 = true ↔
      ((∀ x, x ∈ t.ingredients ↔ x ≠ k) ∧ t.smoker_status k = false) := by
  rw [← try_take_cond_iff]
  by_cases h : (setEq t.ingredients (needed_for k) && !(t.smoker_status k)) = true
  · rw [try_take_of_cond_true h]
    simpa using h
  · rw [try_take_of_cond_false h]
    simpa using h

/-- C3: whenever try_take(k) returns true, the resulting state has the table
cleared, table_busy false, smoker_status[k] true, exactly one agent ("table
free") permit released, the smoker_sem count untouched, and every other
smoker's status entry unchanged. -/
theorem try_take_true_effect (t : Table) (k : Ingredient)
    (h : (t.try_take k).1 = true) :
    (t.try_take k).2.ingredients = [] ∧
    (t.try_take k).2.table_busy = false ∧
    (t.try_take k).2.smoker_status k = true ∧
    (t.try_take k).2.agent_sem = t.agent_sem + 1 ∧
    (t.try_take k).2.smoker_sem = t.smoker_sem ∧
    ∀ j, j ≠ k → (t.try_take k).2.smoker_status j = t.smoker_status j := by
  by_cases hc : (setEq t.ingredients (needed_for k) && !(t.smoker_status k)) = true
  · rw [try_take_of_cond_true hc]
    refine ⟨rfl, rfl, by simp, rfl, rfl, ?_⟩
    intro j hj
    simp [hj]
  · rw [try_take_of_cond_false hc] at h
    simp at h

theorem try_take_true_effect_witness :
    ((Table.init.place_ingredients Ingredient.paper Ingredient.matches).try_take
        Ingredient.tobacco).1 = true ∧
    ((Table.init.place_ingredients Ingredient.paper Ingredient.matches).try_take
        Ingredient.tobacco).2.ingredients = [] ∧
    ((Table.init.place_ingredients Ingredient.paper Ingredient.matches).try_take
        Ingredient.tobacco).2.agent_sem =
      (Table.init.place_ingredients Ingredient.paper Ingredient.matches).agent_sem + 1 ∧
    ((Table.init.place_ingredients Ingredient.paper Ingredient.matches).try_take
        Ingredient.tobacco).2.smoker_status Ingredient.paper =
      (Table.init.place_ingredients Ingredient.paper Ingredient.matches).smoker_status
        Ingredient.paper := by
  refine ⟨by decide, ?_, ?_, ?_⟩
  · exact (try_take_true_effect _ Ingredient.tobacco (by decide)).1
  · exact (try_take_true_effect _ Ingredient.tobacco (by decide)).2.2.2.1
  · exact (try_take_true_effect _ Ingredient.tobacco (by decide)).2.2.2.2.2
      Ingredient.paper (by decide)

/-- C4: place_ingredients(a, b) with a and b distinct sets the table contents
to exactly the pair [a, b], marks the table occupied, and releases the
"consumption available" signal exactly once, so exactly one smoker-wake
event is produced per call. -/
theorem place_ingredients_effect (t : Table) (a b : Ingredient) (_h : a ≠ b) :
    (t.place_ingredients a b).ingredients = [a, b] ∧
    (t.place_ingredients a b).table_busy = true ∧
    (t.place_ingredients a b).smoker_sem = t.smoker_sem + 1 :=
  ⟨rfl, rfl, rfl⟩

theorem place_ingredients_effect_witness :
    Ingredient.tobacco ≠ Ingredient.paper ∧
    (Table.init.place_ingredients Ingredient.tobacco Ingredient.paper).ingredients =
      [Ingredient.tobacco, Ingredient.paper] ∧
    (Table.init.place_ingredients Ingredient.tobacco Ingredient.paper).table_busy = true ∧
    (Table.init.place_ingredients Ingredient.tobacco Ingredient.paper).smoker_sem =
      Table.init.smoker_sem + 1 := by
  refine ⟨by decide, ?_⟩
  exact place_ingredients_effect Table.init Ingredient.tobacco Ingredient.paper (by decide)

/-- C5: whenever try_take(k) returns false, the call leaves the whole table
state unchanged: same ingredients list, same table_busy, every smoker_status
entry and both semaphore counts exactly as before. -/
theorem try_take_false_unchanged (t : Table) (k : Ingredient)
    (h : (t.try_take k).1 = false) : (t.try_take k).2 = t := by
  by_cases hc : (setEq t.ingredients (needed_for k) && !(t.smoker_status k)) = true
  · rw [try_take_of_cond_true hc] at h
    simp at h
  · rw [try_take_of_cond_false hc]

theorem try_take_false_unchanged_witness :
    (Table.init.try_take Ingredient.tobacco).1 = false ∧
    (Table.init.try_take Ingredient.tobacco).2 = Table.init :=
  ⟨by decide, try_take_false_unchanged Table.init Ingredient.tobacco (by decide)⟩

/-- C8: after a successful try_take(k), an immediately repeated try_take(k)
on the resulting state (before any finish_smoking) returns false: the table
was cleared, so the busy smoker cannot take again. -/
theorem try_take_busy_guard (t : Table) (k : Ingredient)
    (h : (t.try_take k).1 = true) : ((t.try_take k).2.try_take k).1 = false := by
  have hnil : (t.try_take k).2.ingredients = [] :=
    (try_take_true_effect t k h).1
  rw [try_take_fst_false_of_nil k hnil]

theorem try_take_busy_guard_witness :
    ((Table.init.place_ingredients Ingredient.paper Ingredient.matches).try_take
        Ingredient.tobacco).1 = true ∧
    (((Table.init.place_ingredients Ingredient.paper Ingredient.matches).try_take
        Ingredient.tobacco).2.try_take Ingredient.tobacco).1 = false :=
  ⟨by decide, try_take_busy_guard _ Ingredient.tobacco (by decide)⟩

/-- C9: if place_ingredients is called with the same kind twice, the table
holds a duplicate pair and no try_take of any kind can ever return true
against that state: the needed set always has two distinct members while
the table holds only one. -/
theorem place_equal_pair_never_taken (t : Table) (a k : Ingredient) :
    ((t.place_ingredients a a).try_take k).1 = false := by
  have hset : setEq (t.place_ingredients a a).ingredients (needed_for k) = false := by
    show setEq [a, a] (needed_for k) = false
    cases a <;> cases k <;> decide
  rw [try_take_of_cond_false (by simp [hset])]

-- C6: counting successful try_take calls in a row.

/-- Run try_take once per kind in the list, threading the state, and count
how many of the calls returned true.  This models a smoker round-robin with
no intervening place_ingredients. -/
def run_takes : Table → List Ingredient → Nat
  | _, [] => 0
  | t, k :: ks => (if (t.try_take k).1 then 1 else 0) + run_takes (t.try_take k).2 ks

theorem run_takes_of_nil (t : Table) (ks : List Ingredient)
    (h : t.ingredients = []) : run_takes t ks = 0 := by
  induction ks with
  | nil => rfl
  | cons k ks ih =>
    simp only [run_takes, try_take_fst_false_of_nil k h]
    simpa using ih

theorem run_takes_le_one (ks : List Ingredient) : ∀ t, run_takes t ks ≤ 1 := by
  induction ks with
  | nil => intro t; simp [run_takes]
  | cons k ks ih =>
    intro t
    by_cases hc : (t.try_take k).1 = true
    · have hnil : (t.try_take k).2.ingredients = [] := (try_take_true_effect t k hc).1
      simp [run_takes, hc, run_takes_of_nil _ ks hnil]
    · have hf : (t.try_take k).1 = false := by simpa using hc
      simp only [run_takes, hf, if_false, try_take_false_unchanged t k hf]
      simpa using ih t

/-- C6: starting from any state produced by a single place_ingredients call,
every subsequent sequence of try_take calls, by any kinds in any order with
no intervening place_ingredients, has at most one call return true: the
successful call clears the table inside the same atomic section, and from an
empty table every try_take fails. -/
theorem place_then_at_most_one_take (t : Table) (a b : Ingredient)
    (ks : List Ingredient) : run_takes (t.place_ingredients a b) ks ≤ 1 :=
  run_takes_le_one ks _

-- C10: coupling of table_busy with the ingredients list.

/-- The coupling invariant: the table is marked busy exactly when some
ingredients lie on it. -/
def busyInv (t : Table) : Prop := t.table_busy = true ↔ t.ingredients ≠ []

/-- C10: the initial table satisfies the coupling invariant that table_busy
holds iff the ingredients list is non-empty, and every call to
place_ingredients, try_take and finish_smoking preserves it. -/
theorem busy_coupling_invariant :
    busyInv Table.init ∧
    (∀ t first second, busyInv t → busyInv (t.place_ingredients first second)) ∧
    (∀ t k, busyInv t → busyInv (t.try_take k).2) ∧
    (∀ t k, busyInv t → busyInv (t.finish_smoking k)) := by
  refine ⟨?_, ?_, ?_, ?_⟩
  · simp [busyInv, Table.init]
  · intro t f s _
    simp [busyInv, Table.place_ingredients]
  · intro t k h
    by_cases hc : (t.try_take k).1 = true
    · have heff := try_take_true_effect t k hc
      simp [busyInv, heff.1, heff.2.1]
    · rw [try_take_false_unchanged t k (by simpa using hc)]
      exact h
  · intro t k h
    simpa [busyInv, Table.finish_smoking] using h

theorem busy_coupling_invariant_witness :
    busyInv (Table.init.place_ingredients Ingredient.tobacco Ingredient.paper) ∧
    busyInv (Table.init.try_take Ingredient.tobacco).2 ∧
    busyInv (Table.init.finish_smoking Ingredient.tobacco) :=
  ⟨busy_coupling_invariant.2.1 Table.init Ingredient.tobacco Ingredient.paper
      busy_coupling_invariant.1,
   busy_coupling_invariant.2.2.1 Table.init Ingredient.tobacco
      busy_coupling_invariant.1,
   busy_coupling_invariant.2.2.2 Table.init Ingredient.tobacco
      busy_coupling_invariant.1⟩

-- C7: contents are empty or an exact distinct pair, along every run.

/-- The contents invariant: the table is empty or holds exactly two distinct
kinds. -/
def pairInv (t : Table) : Prop :=
  t.ingredients = [] ∨ (t.ingredients.length = 2 ∧ t.ingredients.Nodup)

theorem pairInv_step {t u : Table} (hs : Step t u) (h : pairInv t) : pairInv u := by
  cases hs with
  | place f s hsem hne =>
    right
    exact ⟨rfl, by simp [Table.place_ingredients, hne]⟩
  | take k =>
    by_cases hc : (t.try_take k).1 = true
    · exact Or.inl (try_take_true_effect t k hc).1
    · rw [try_take_false_unchanged t k (by simpa using hc)]
      exact h
  | finish k => exact h

theorem pairInv_reachable_aux {t s : Table} (h : Reachable t s)
    (h0 : pairInv t) : pairInv s := by
  induction h with
  | refl => exact h0
  | step hr hs ih => exact pairInv_step hs ih

/-- C7: in every state reachable from the initial table by place_ingredients
(called, per the spec precondition of publish and its only call site in
agent, with distinct kinds), try_take and finish_smoking, a non-empty
ingredients list has length exactly 2 and no duplicate, i.e. holds exactly
two distinct resource kinds. -/
theorem reachable_pair (s : Table) (h : Reachable Table.init s)
    (hne : s.ingredients ≠ []) :
    s.ingredients.length = 2 ∧ s.ingredients.Nodup := by
  rcases pairInv_reachable_aux h (Or.inl rfl) with h0 | h2
  · exact absurd h0 hne
  · exact h2

/-- The state after the agent publishes paper and matches on the fresh table. -/
def pubPM : Table := Table.init.place_ingredients Ingredient.paper Ingredient.matches

theorem reachable_pubPM : Reachable Table.init pubPM :=
  Reachable.step (Reachable.refl _)
    (Step.place Table.init Ingredient.paper Ingredient.matches (by decide) (by decide))

theorem reachable_pair_witness :
    pubPM.ingredients ≠ [] ∧ pubPM.ingredients.length = 2 ∧ pubPM.ingredients.Nodup :=
  ⟨by decide, reachable_pair pubPM reachable_pubPM (by decide)⟩

-- C1: the mutual-exclusion race.

/-- The state after the tobacco-smoker successfully takes from pubPM. -/
def tookT : Table := (pubPM.try_take Ingredient.tobacco).2

/-- The state after the agent republishes tobacco and matches while the
tobacco-smoker is still smoking (its finish_smoking has not run yet):
nothing in the code makes the agent wait for the smoking session, since
try_take released agent_sem already. -/
def pubTM : Table := tookT.place_ingredients Ingredient.tobacco Ingredient.matches

/-- The state after the paper-smoker also takes: two smokers now smoke at
once. -/
def raceState : Table := (pubTM.try_take Ingredient.paper).2

/-- C1 counterexample: the race the spec flags in its design notes is real.
The interleaving place(paper, matches); try_take(tobacco); place(tobacco,
matches); try_take(paper) is a legal run from the initial table (every
place finds an agent_sem permit, since the successful try_take released it
before finish_smoking ran), and it reaches a state in which both
smoker_status[tobacco] and smoker_status[paper] are true, so more than one
entry of smoker_status is true in a reachable state. -/
theorem mutual_exclusion_counterexample :
    Reachable Table.init raceState ∧
    raceState.smoker_status Ingredient.tobacco = true ∧
    raceState.smoker_status Ingredient.paper = true ∧
    Ingredient.tobacco ≠ Ingredient.paper := by
  refine ⟨?_, by decide, by decide, by decide⟩
  have h1 : Step Table.init pubPM :=
    Step.place Table.init Ingredient.paper Ingredient.matches (by decide) (by decide)
  have h2 : Step pubPM tookT := Step.take pubPM Ingredient.tobacco
  have h3 : Step tookT pubTM :=
    Step.place tookT Ingredient.tobacco Ingredient.matches (by decide) (by decide)
  have h4 : Step pubTM raceState := Step.take pubTM Ingredient.paper
  exact Reachable.step
    (Reachable.step (Reachable.step (Reachable.step (Reachable.refl _) h1) h2) h3) h4

/-- The synchronized discipline under which the placement protocol does give
mutual exclusion: the same three calls, but the agent additionally waits
until no smoker is smoking before placing again, i.e. each smoking session
ends (finish_smoking runs) before the next publication.  This is exactly
the restriction the counterexample above shows the code itself does not
impose. -/
inductive StepSync : Table → Table → Prop where
  | place (t : Table) (first second : Ingredient) :
      0 < t.agent_sem → first ≠ second → (∀ k, t.smoker_status k = false) →
      StepSync t (t.place_ingredients first second)
  | take (t : Table) (own : Ingredient) :
      StepSync t (t.try_take own).2
  | finish (t : Table) (own : Ingredient) :
      StepSync t (t.finish_smoking own)

/-- Reachability under the synchronized discipline. -/
inductive ReachableSync : Table → Table → Prop where
  | refl (t : Table) : ReachableSync t t
  | step {t u v : Table} : ReachableSync t u → StepSync u v → ReachableSync t v

/-- The inductive invariant for the synchronized runs: at most one smoker
flag is set, and while one is set the table is empty. -/
def syncInv (t : Table) : Prop :=
  (∀ j k, t.smoker_status j = true → t.smoker_status k = true → j = k) ∧
  (∀ j, t.smoker_status j = true → t.ingredients = [])

theorem syncInv_step {t u : Table} (hs : StepSync t u) (h : syncInv t) :
    syncInv u := by
  cases hs with
  | place f s hsem hne hall =>
    constructor
    · intro j k hj _
      have hj' : t.smoker_status j = true := hj
      rw [hall j] at hj'
      exact absurd hj' (by simp)
    · intro j hj
      have hj' : t.smoker_status j = true := hj
      rw [hall j] at hj'
      exact absurd hj' (by simp)
  | take k =>
    by_cases hc : (t.try_take k).1 = true
    · have heff := try_take_true_effect t k hc
      have hkey : ∀ j, (t.try_take k).2.smoker_status j = true → j = k := by
        intro j hj
        by_contra hjk
        rw [heff.2.2.2.2.2 j hjk] at hj
        have hnil : t.ingredients = [] := h.2 j hj
        rw [try_take_fst_false_of_nil k hnil] at hc
        exact absurd hc (by simp)
      constructor
      · intro j j' hj hj'
        rw [hkey j hj, hkey j' hj']
      · intro j _
        exact heff.1
    · rw [try_take_false_unchanged t k (by simpa using hc)]
      exact h
  | finish k =>
    have hstat : ∀ j, (t.finish_smoking k).smoker_status j = true →
        t.smoker_status j = true := by
      intro j hj
      by_cases hjk : j = k
      · subst hjk
        simp [Table.finish_smoking] at hj
      · simpa [Table.finish_smoking, hjk] using hj
    constructor
    · intro j j' hj hj'
      exact h.1 j j' (hstat j hj) (hstat j' hj')
    · intro j hj
      exact h.2 j (hstat j hj)

theorem syncInv_reachable_aux {t s : Table} (h : ReachableSync t s)
    (h0 : syncInv t) : syncInv s := by
  induction h with
  | refl => exact h0
  | step hr hs ih => exact syncInv_step hs ih

theorem syncInv_init : syncInv Table.init := by
  constructor
  · intro j k hj _
    have hj' : Table.init.smoker_status j = true := hj
    simp [Table.init] at hj'
  · intro j hj
    have hj' : Table.init.smoker_status j = true := hj
    simp [Table.init] at hj'

/-- C1 amended: the code as written does not give global mutual exclusion
(see the counterexample), but it does under the discipline the protocol was
designed for: in every state reachable from the initial table by
interleavings in which the agent only places while no smoker_status entry
is true (each smoking session finishes before the next publication), at
most one entry of smoker_status is true. -/
theorem mutual_exclusion_sync (s : Table) (h : ReachableSync Table.init s) :
    ∀ j k, s.smoker_status j = true → s.smoker_status k = true → j = k :=
  (syncInv_reachable_aux h syncInv_init).1

theorem mutual_exclusion_sync_witness :
    tookT.smoker_status Ingredient.tobacco = true ∧
    Ingredient.tobacco = Ingredient.tobacco := by
  refine ⟨by decide, ?_⟩
  refine mutual_exclusion_sync tookT ?_ Ingredient.tobacco Ingredient.tobacco
    (by decide) (by decide)
  have h1 : StepSync Table.init pubPM :=
    StepSync.place Table.init Ingredient.paper Ingredient.matches (by decide) (by decide)
      (fun _ => rfl)
  have h2 : StepSync pubPM tookT := StepSync.take pubPM Ingredient.tobacco
  exact ReachableSync.step (ReachableSync.step (ReachableSync.refl _) h1) h2

